import Mathlib

/-!
Verification of the tinybit endian-conversion library (src/lib.rs).

A value of an `Endian` type is identified with its in-memory byte
representation (its bit pattern): a `List Byte` whose length is
`mem::size_of::<Self>()`. The host byte order, fixed by
`cfg(target_endian)` at compile time in the source, is an explicit
`hostBig : Bool` parameter here. Streams are modelled as explicit
state-passing functions: one `Write::write` or `Read::read` call maps a
stream state to an outcome and a new state.
-/

namespace Tinybit

/-- A byte of modelled memory. The transform only permutes positions, so
bytes are plain naturals. -/
abbrev Byte := Nat

/-- Model of `std::io::Error` as this library observes it: `unexpectedEof`
models `io::Error::from(io::ErrorKind::UnexpectedEof)` — note it carries no
byte count — and `other` models any failure coming from the stream
collaborator, with an opaque payload. -/
inductive IOError where
  | unexpectedEof : IOError
  | other : Nat → IOError
deriving DecidableEq

/-- Model of the source's `EndianError` enum (src/lib.rs lines 13-16). Its
`EndOfStream` variant is documented to carry the number of bytes
written/read; no function of the library ever constructs this type — the
conversion functions return `io::Error` instead. -/
inductive EndianError where
  | EndOfStream : Nat → EndianError
deriving DecidableEq

/-- Semantics of `ptr::swap(ptr.add(i), ptr.add(j))` on a byte region: the
bytes at positions `i` and `j` are exchanged. -/
def swapAt (l : List Byte) (i j : Nat) : List Byte :=
  (l.set i (l.getD j 0)).set j (l.getD i 0)

/-- The first `k` iterations of the reversal loop
`for i in 0..half_len { ptr::swap(ptr.add(i), ptr.add(len - i - 1)) }`. -/
def swapIter (buf : List Byte) (len : Nat) : Nat → List Byte
  | 0 => buf
  | k + 1 => swapAt (swapIter buf len k) k (len - k - 1)

/-- Loop body shared by the two transform directions in the source:
compute `half_len = len / 2` and, when it is positive, run the swap loop
over `i in 0..half_len`. -/
def reverseLoop (buf : List Byte) (len : Nat) : List Byte :=
  let half_len := len / 2
  if half_len > 0 then swapIter buf len half_len else buf

/-- Embedding of `transform_le_bytes` (src/lib.rs lines 237-249): a no-op
on a little-endian host, an in-place byte reversal of the first `len`
bytes on a big-endian host. -/
def transform_le_bytes (hostBig : Bool) (buf : List Byte) (len : Nat) : List Byte :=
  if hostBig then reverseLoop buf len else buf

/-- Embedding of `transform_be_bytes` (src/lib.rs lines 257-272): a no-op
on a big-endian host, an in-place byte reversal of the first `len` bytes
on a little-endian host. -/
def transform_be_bytes (hostBig : Bool) (buf : List Byte) (len : Nat) : List Byte :=
  if hostBig then buf else reverseLoop buf len

/-- One `Write::write` call: maps the stream state and the offered bytes
to the count accepted and the new state, or an io error. -/
abbrev WriteFn (σ : Type) := σ → List Byte → Except IOError (Nat × σ)

/-- One `Read::read` call: maps the stream state and the requested count
to the bytes delivered (at most the requested count for a well-behaved
reader) and the new state, or an io error. -/
abbrev ReadFn (ρ : Type) := ρ → Nat → Except IOError (List Byte × ρ)

/-- Embedding of `Endian::to_le_bytes` (src/lib.rs lines 28-48). Returns
the io result paired with the bytes of `*self` as the caller sees them
after the call: the source copies `*self` into the local `tmp` and
transforms only `tmp`, so the second component is `self` on every path. -/
def to_le_bytes {σ : Type} (hostBig : Bool) (self : List Byte) (wr : WriteFn σ)
    (s : σ) : Except IOError (Nat × σ) × List Byte :=
  let size := self.length
  if size = 0 then (Except.ok (0, s), self)
  else
    let tmp := self
    let tmp := transform_le_bytes hostBig tmp size
    (wr s tmp, self)

/-- Embedding of `Endian::to_be_bytes` (src/lib.rs lines 81-101), the
big-endian counterpart of `to_le_bytes`. -/
def to_be_bytes {σ : Type} (hostBig : Bool) (self : List Byte) (wr : WriteFn σ)
    (s : σ) : Except IOError (Nat × σ) × List Byte :=
  let size := self.length
  if size = 0 then (Except.ok (0, s), self)
  else
    let tmp := self
    let tmp := transform_be_bytes hostBig tmp size
    (wr s tmp, self)

/-- Embedding of `Endian::to_le_bytes_unchecked` (src/lib.rs lines 58-71).
`out` is the destination memory region: `ptr::copy_nonoverlapping`
overwrites its first `size` bytes with the value's bytes, then the
transform runs in place on that region; the byte count is returned. -/
def to_le_bytes_unchecked (hostBig : Bool) (self : List Byte) (out : List Byte) :
    Nat × List Byte :=
  let size := self.length
  if size = 0 then (0, out)
  else
    let out := self ++ out.drop size
    let out := transform_le_bytes hostBig out size
    (size, out)

/-- Embedding of `Endian::to_be_bytes_unchecked` (src/lib.rs lines
111-124). -/
def to_be_bytes_unchecked (hostBig : Bool) (self : List Byte) (out : List Byte) :
    Nat × List Byte :=
  let size := self.length
  if size = 0 then (0, out)
  else
    let out := self ++ out.drop size
    let out := transform_be_bytes hostBig out size
    (size, out)

/-- Contents of a zero-initialized buffer of `size` bytes after its first
`chunk.length` bytes were filled: `mem::MaybeUninit::zeroed` followed by a
read (or copy) delivering `chunk`. -/
def fillBuffer (size : Nat) (chunk : List Byte) : List Byte :=
  chunk.take size ++ List.replicate (size - chunk.length) 0

/-- Embedding of `Endian::from_le_bytes` (src/lib.rs lines 131-150).
`size` is `mem::size_of::<Self>()`; on success the value is returned as
its native-order byte representation, paired with the reader state after
the call. For a zero-size type the default instance (the empty bit
pattern) is returned with no stream interaction. -/
def from_le_bytes {ρ : Type} (hostBig : Bool) (size : Nat) (rd : ReadFn ρ)
    (r : ρ) : Except IOError (List Byte × ρ) :=
  if size = 0 then Except.ok ([], r)
  else
    match rd r size with
    | Except.error e => Except.error e
    | Except.ok (chunk, r2) =>
      if chunk.length < size then Except.error IOError.unexpectedEof
      else Except.ok (transform_le_bytes hostBig (fillBuffer size chunk) size, r2)

/-- Embedding of `Endian::from_be_bytes` (src/lib.rs lines 179-198); the
zero-size path returns `mem::zeroed()`, which for a zero-size type is the
same empty bit pattern. -/
def from_be_bytes {ρ : Type} (hostBig : Bool) (size : Nat) (rd : ReadFn ρ)
    (r : ρ) : Except IOError (List Byte × ρ) :=
  if size = 0 then Except.ok ([], r)
  else
    match rd r size with
    | Except.error e => Except.error e
    | Except.ok (chunk, r2) =>
      if chunk.length < size then Except.error IOError.unexpectedEof
      else Except.ok (transform_be_bytes hostBig (fillBuffer size chunk) size, r2)

/-- Embedding of `Endian::from_le_bytes_unchecked` (src/lib.rs lines
158-172): copy `size` bytes from `src` into a zeroed local buffer,
transform, reinterpret. The caller-enforced precondition is
`size ≤ src.length`. -/
def from_le_bytes_unchecked (hostBig : Bool) (size : Nat) (src : List Byte) :
    List Byte :=
  if size = 0 then []
  else transform_le_bytes hostBig (fillBuffer size src) size

/-- Embedding of `Endian::from_be_bytes_unchecked` (src/lib.rs lines
206-220). -/
def from_be_bytes_unchecked (hostBig : Bool) (size : Nat) (src : List Byte) :
    List Byte :=
  if size = 0 then []
  else transform_be_bytes hostBig (fillBuffer size src) size

/-- A `Vec<u8>`-style sink: accepts every byte offered and appends it to
its state. -/
def sinkWrite : WriteFn (List Byte) :=
  fun s bytes => Except.ok (bytes.length, s ++ bytes)

/-- A writer that accepts at most one byte per call and discards it. Short
writes are permitted by the `Write` contract. -/
def shortWrite : WriteFn Unit :=
  fun s bytes => Except.ok (min 1 bytes.length, s)

/-- A slice-style reader: each call delivers as many of the remaining
bytes as requested and advances past them. -/
def streamRead : ReadFn (List Byte) :=
  fun r n => Except.ok (r.take n, r.drop n)

/-- A reader scripted with one chunk per call: each read call consumes the
next chunk and delivers at most the requested count from it; reading past
the script delivers nothing (end of stream). -/
def chunkRead : ReadFn (List (List Byte)) :=
  fun r n =>
    match r with
    | [] => Except.ok ([], [])
    | c :: rest => Except.ok (c.take n, rest)

/-- Byte `i` (counting from the least significant end) of the natural
number `v`. -/
def byteOf (v i : Nat) : Byte := v / 256 ^ i % 256

/-- Little-endian byte layout of a 4-byte unsigned integer value. -/
def u32LeBytes (v : Nat) : List Byte :=
  [byteOf v 0, byteOf v 1, byteOf v 2, byteOf v 3]

/-- In-memory (native-order) representation of a 4-byte unsigned integer
on a host of the given byte order: a little-endian host stores the least
significant byte first, a big-endian host the most significant byte
first. -/
def u32NativeBytes (hostBig : Bool) (v : Nat) : List Byte :=
  if hostBig then (u32LeBytes v).reverse else u32LeBytes v

/-! ## Properties of the swap loop -/

theorem length_swapAt (l : List Byte) (i j : Nat) : (swapAt l i j).length = l.length := by
  simp [swapAt]

theorem length_swapIter (buf : List Byte) (len : Nat) :
    ∀ k, (swapIter buf len k).length = buf.length
  | 0 => rfl
  | k + 1 => by
    simp [swapIter, length_swapAt, length_swapIter buf len k]

theorem getElem?_swapAt (l : List Byte) (i j m : Nat) (hi : i < l.length)
    (hj : j < l.length) :
    (swapAt l i j)[m]? = if j = m then l[i]? else if i = m then l[j]? else l[m]? := by
  unfold swapAt
  rw [List.getElem?_set, List.getElem?_set]
  simp only [List.length_set]
  by_cases hmj : j = m
  · subst hmj
    simp [hj, List.getD_eq_getElem?_getD, List.getElem?_eq_getElem hi]
  · by_cases hmi : i = m
    · subst hmi
      simp [hmj, hi, List.getD_eq_getElem?_getD, List.getElem?_eq_getElem hj]
    · simp [hmj, hmi]

/-- Pointwise effect of the first `k` iterations of the reversal loop:
positions below `k` and positions in `[len - k, len)` hold the mirrored
byte, every other position is untouched. -/
theorem getElem?_swapIter (buf : List Byte) (len : Nat) (hlen : len ≤ buf.length) :
    ∀ k, k ≤ len / 2 → ∀ j : Nat,
      (swapIter buf len k)[j]? =
        if j < k ∨ (len - k ≤ j ∧ j < len) then buf[len - 1 - j]? else buf[j]? := by
  intro k
  induction k with
  | zero =>
    intro _ j
    have : ¬(j < 0 ∨ (len - 0 ≤ j ∧ j < len)) := by omega
    rw [if_neg this]
    rfl
  | succ k ih =>
    intro hk j
    have hk2 : k ≤ len / 2 := by omega
    have hlen2 : 2 * (k + 1) ≤ len := by omega
    have hki : k < (swapIter buf len k).length := by
      rw [length_swapIter]; omega
    have hkj : len - k - 1 < (swapIter buf len k).length := by
      rw [length_swapIter]; omega
    rw [show swapIter buf len (k + 1) = swapAt (swapIter buf len k) k (len - k - 1) from rfl]
    rw [getElem?_swapAt _ _ _ _ hki hkj]
    by_cases hmj : len - k - 1 = j
    · rw [if_pos hmj, ih hk2 k]
      have hpk : ¬(k < k ∨ (len - k ≤ k ∧ k < len)) := by omega
      rw [if_neg hpk]
      have hpj : j < k + 1 ∨ (len - (k + 1) ≤ j ∧ j < len) := by omega
      rw [if_pos hpj]
      have : len - 1 - j = k := by omega
      rw [this]
    · rw [if_neg hmj]
      by_cases hmi : k = j
      · rw [if_pos hmi, ih hk2 (len - k - 1)]
        have hpk : ¬(len - k - 1 < k ∨ (len - k ≤ len - k - 1 ∧ len - k - 1 < len)) := by
          omega
        rw [if_neg hpk]
        have hpj : j < k + 1 ∨ (len - (k + 1) ≤ j ∧ j < len) := by omega
        rw [if_pos hpj]
        have : len - 1 - j = len - k - 1 := by omega
        rw [this]
      · rw [if_neg hmi, ih hk2 j]
        by_cases hp : j < k ∨ (len - k ≤ j ∧ j < len)
        · rw [if_pos hp]
          have : j < k + 1 ∨ (len - (k + 1) ≤ j ∧ j < len) := by omega
          rw [if_pos this]
        · rw [if_neg hp]
          have : ¬(j < k + 1 ∨ (len - (k + 1) ≤ j ∧ j < len)) := by omega
          rw [if_neg this]

/-- Pointwise description of the reversal loop: the first `len` positions
are mirrored, positions past `len` are untouched. -/
theorem getElem?_reverseLoop (buf : List Byte) (len : Nat) (hlen : len ≤ buf.length)
    (j : Nat) :
    (reverseLoop buf len)[j]? = if j < len then buf[len - 1 - j]? else buf[j]? := by
  unfold reverseLoop
  by_cases h : len / 2 > 0
  · rw [if_pos h, getElem?_swapIter buf len hlen (len / 2) le_rfl j]
    by_cases hj : j < len
    · rw [if_pos hj]
      by_cases hpred : j < len / 2 ∨ (len - len / 2 ≤ j ∧ j < len)
      · rw [if_pos hpred]
      · rw [if_neg hpred]
        have : len - 1 - j = j := by omega
        rw [this]
    · have : ¬(j < len / 2 ∨ (len - len / 2 ≤ j ∧ j < len)) := by omega
      rw [if_neg this, if_neg hj]
  · rw [if_neg h]
    by_cases hj : j < len
    · rw [if_pos hj]
      have : len - 1 - j = j := by omega
      rw [this]
    · rw [if_neg hj]

/-- On a region that is a prefix of the buffer, the reversal loop reverses
exactly that prefix and leaves the tail untouched. -/
theorem reverseLoop_eq_of_le (buf : List Byte) (len : Nat) (hlen : len ≤ buf.length) :
    reverseLoop buf len = (buf.take len).reverse ++ buf.drop len := by
  have hta : (buf.take len).length = len := by
    simp [List.length_take]; omega
  apply List.ext_getElem?
  intro j
  rw [getElem?_reverseLoop buf len hlen j, List.getElem?_append, List.length_reverse, hta]
  by_cases hj : j < len
  · rw [if_pos hj, if_pos hj]
    rw [List.getElem?_reverse (by rw [hta]; exact hj), hta]
    rw [List.getElem?_take, if_pos (show len - 1 - j < len by omega)]
  · rw [if_neg hj, if_neg hj, List.getElem?_drop]
    have : len + (j - len) = j := by omega
    rw [this]

/-- The reversal loop on the whole buffer is list reversal. -/
theorem reverseLoop_eq_reverse (buf : List Byte) :
    reverseLoop buf buf.length = buf.reverse := by
  rw [reverseLoop_eq_of_le buf buf.length le_rfl]
  simp

theorem transform_le_bytes_eq (hostBig : Bool) (buf : List Byte) :
    transform_le_bytes hostBig buf buf.length = if hostBig then buf.reverse else buf := by
  cases hostBig <;> simp [transform_le_bytes, reverseLoop_eq_reverse]

theorem transform_be_bytes_eq (hostBig : Bool) (buf : List Byte) :
    transform_be_bytes hostBig buf buf.length = if hostBig then buf else buf.reverse := by
  cases hostBig <;> simp [transform_be_bytes, reverseLoop_eq_reverse]

theorem length_transform_le_bytes (hostBig : Bool) (buf : List Byte) :
    (transform_le_bytes hostBig buf buf.length).length = buf.length := by
  rw [transform_le_bytes_eq]
  cases hostBig <;> simp

theorem length_transform_be_bytes (hostBig : Bool) (buf : List Byte) :
    (transform_be_bytes hostBig buf buf.length).length = buf.length := by
  rw [transform_be_bytes_eq]
  cases hostBig <;> simp

/-- Transforming a region that is a prefix of a longer buffer reverses (or
keeps) the prefix and leaves the tail untouched. -/
theorem transform_le_bytes_append (hostBig : Bool) (v rest : List Byte) :
    transform_le_bytes hostBig (v ++ rest) v.length =
      (if hostBig then v.reverse else v) ++ rest := by
  cases hostBig
  · simp [transform_le_bytes]
  · show reverseLoop (v ++ rest) v.length = v.reverse ++ rest
    rw [reverseLoop_eq_of_le (v ++ rest) v.length (by simp)]
    rw [List.take_left, List.drop_left]

theorem transform_be_bytes_append (hostBig : Bool) (v rest : List Byte) :
    transform_be_bytes hostBig (v ++ rest) v.length =
      (if hostBig then v else v.reverse) ++ rest := by
  cases hostBig
  · show reverseLoop (v ++ rest) v.length = v.reverse ++ rest
    rw [reverseLoop_eq_of_le (v ++ rest) v.length (by simp)]
    rw [List.take_left, List.drop_left]
  · simp [transform_be_bytes]

/-- Transforming twice with the original length restores the buffer. -/
theorem transform_le_bytes_twice (hostBig : Bool) (buf : List Byte) :
    transform_le_bytes hostBig (transform_le_bytes hostBig buf buf.length) buf.length
      = buf := by
  rw [transform_le_bytes_eq hostBig buf]
  cases hostBig
  · rfl
  · show transform_le_bytes true buf.reverse buf.length = buf
    rw [show (buf.length : Nat) = buf.reverse.length from (List.length_reverse buf).symm]
    rw [transform_le_bytes_eq]
    simp

theorem transform_be_bytes_twice (hostBig : Bool) (buf : List Byte) :
    transform_be_bytes hostBig (transform_be_bytes hostBig buf buf.length) buf.length
      = buf := by
  rw [transform_be_bytes_eq hostBig buf]
  cases hostBig
  · show transform_be_bytes false buf.reverse buf.length = buf
    rw [show (buf.length : Nat) = buf.reverse.length from (List.length_reverse buf).symm]
    rw [transform_be_bytes_eq]
    simp
  · rfl

/-! ## Characterizations of the conversion operations -/

theorem fillBuffer_eq_of_length (size : Nat) (chunk : List Byte)
    (h : chunk.length = size) : fillBuffer size chunk = chunk := by
  simp [fillBuffer, h, List.take_of_length_le (Nat.le_of_eq h)]

theorem fillBuffer_eq_take (size : Nat) (chunk : List Byte) (h : size ≤ chunk.length) :
    fillBuffer size chunk = chunk.take size := by
  simp [fillBuffer, Nat.sub_eq_zero_of_le h]

/-- Checked little-endian encode through an accept-everything sink: it
reports the value's full size and appends the transformed copy of the
value's bytes to the sink. -/
theorem to_le_bytes_sink (hostBig : Bool) (v s : List Byte) :
    to_le_bytes hostBig v sinkWrite s =
      (Except.ok (v.length, s ++ transform_le_bytes hostBig v v.length), v) := by
  by_cases h : v.length = 0
  · have hv : v = [] := List.length_eq_zero.mp h
    subst hv
    cases hostBig <;> simp [to_le_bytes, transform_le_bytes, reverseLoop]
  · simp only [to_le_bytes, if_neg h, sinkWrite]
    rw [length_transform_le_bytes]

theorem to_be_bytes_sink (hostBig : Bool) (v s : List Byte) :
    to_be_bytes hostBig v sinkWrite s =
      (Except.ok (v.length, s ++ transform_be_bytes hostBig v v.length), v) := by
  by_cases h : v.length = 0
  · have hv : v = [] := List.length_eq_zero.mp h
    subst hv
    cases hostBig <;> simp [to_be_bytes, transform_be_bytes, reverseLoop]
  · simp only [to_be_bytes, if_neg h, sinkWrite]
    rw [length_transform_be_bytes]

/-- Checked little-endian decode from a slice-style reader holding at
least `size` bytes: it consumes exactly `size` bytes and constructs the
value from the transformed prefix. -/
theorem from_le_bytes_stream (hostBig : Bool) (size : Nat) (src : List Byte)
    (h : size ≤ src.length) :
    from_le_bytes hostBig size streamRead src =
      Except.ok (transform_le_bytes hostBig (src.take size) size, src.drop size) := by
  by_cases h0 : size = 0
  · subst h0
    cases hostBig <;> simp [from_le_bytes, transform_le_bytes, reverseLoop]
  · have hlen : (src.take size).length = size := by
      simp [List.length_take]; omega
    simp only [from_le_bytes, if_neg h0, streamRead]
    rw [if_neg (by rw [hlen]; omega), fillBuffer_eq_of_length size (src.take size) hlen]

theorem from_be_bytes_stream (hostBig : Bool) (size : Nat) (src : List Byte)
    (h : size ≤ src.length) :
    from_be_bytes hostBig size streamRead src =
      Except.ok (transform_be_bytes hostBig (src.take size) size, src.drop size) := by
  by_cases h0 : size = 0
  · subst h0
    cases hostBig <;> simp [from_be_bytes, transform_be_bytes, reverseLoop]
  · have hlen : (src.take size).length = size := by
      simp [List.length_take]; omega
    simp only [from_be_bytes, if_neg h0, streamRead]
    rw [if_neg (by rw [hlen]; omega), fillBuffer_eq_of_length size (src.take size) hlen]

/-- Unchecked little-endian encode: it returns the value's size and the
destination with its first `size` bytes replaced by the transformed value
bytes, the tail untouched. -/
theorem to_le_bytes_unchecked_eq (hostBig : Bool) (self out : List Byte) :
    to_le_bytes_unchecked hostBig self out =
      (self.length,
        if self.length = 0 then out
        else (if hostBig then self.reverse else self) ++ out.drop self.length) := by
  by_cases h : self.length = 0
  · have hv : self = [] := List.length_eq_zero.mp h
    subst hv
    rfl
  · simp only [to_le_bytes_unchecked, if_neg h]
    rw [transform_le_bytes_append]

theorem to_be_bytes_unchecked_eq (hostBig : Bool) (self out : List Byte) :
    to_be_bytes_unchecked hostBig self out =
      (self.length,
        if self.length = 0 then out
        else (if hostBig then self else self.reverse) ++ out.drop self.length) := by
  by_cases h : self.length = 0
  · have hv : self = [] := List.length_eq_zero.mp h
    subst hv
    rfl
  · simp only [to_be_bytes_unchecked, if_neg h]
    rw [transform_be_bytes_append]

/-! ## Claims -/

/-- C1: for every value (of any size) and every byte order, on either
host, decoding the bytes that checked encode produced through a lossless
stream yields a value whose bit pattern is identical to the original. -/
theorem encode_decode_round_trip (hostBig : Bool) (v : List Byte) :
    (to_le_bytes hostBig v sinkWrite []).1 =
        Except.ok (v.length, transform_le_bytes hostBig v v.length) ∧
    (from_le_bytes hostBig v.length streamRead
        (transform_le_bytes hostBig v v.length)).map Prod.fst = Except.ok v ∧
    (to_be_bytes hostBig v sinkWrite []).1 =
        Except.ok (v.length, transform_be_bytes hostBig v v.length) ∧
    (from_be_bytes hostBig v.length streamRead
        (transform_be_bytes hostBig v v.length)).map Prod.fst = Except.ok v := by
  have hle : (transform_le_bytes hostBig v v.length).length = v.length :=
    length_transform_le_bytes hostBig v
  have hbe : (transform_be_bytes hostBig v v.length).length = v.length :=
    length_transform_be_bytes hostBig v
  refine ⟨?_, ?_, ?_, ?_⟩
  · rw [to_le_bytes_sink]
    simp
  · rw [from_le_bytes_stream hostBig v.length _ (Nat.le_of_eq hle.symm)]
    rw [List.take_of_length_le (Nat.le_of_eq hle)]
    rw [transform_le_bytes_twice]
    rfl
  · rw [to_be_bytes_sink]
    simp
  · rw [from_be_bytes_stream hostBig v.length _ (Nat.le_of_eq hbe.symm)]
    rw [List.take_of_length_le (Nat.le_of_eq hbe)]
    rw [transform_be_bytes_twice]
    rfl

/-- C2: decoding a 4-byte value from a source that yields 2 bytes and then
ends fails — but with the payload-free `unexpectedEof` io error
(`io::Error::from(io::ErrorKind::UnexpectedEof)` in the source), which does
not carry the count of bytes obtained; the source's
`EndianError::EndOfStream`, whose documented purpose is to carry that
count, is never constructed. -/
theorem decode_short_read_reports_no_count :
    from_le_bytes false 4 chunkRead [[0xAA, 0xBB]] = Except.error IOError.unexpectedEof ∧
    from_be_bytes false 4 chunkRead [[0xAA, 0xBB]] = Except.error IOError.unexpectedEof ∧
    from_le_bytes true 4 chunkRead [[0xAA, 0xBB]] = Except.error IOError.unexpectedEof ∧
    from_be_bytes true 4 chunkRead [[0xAA, 0xBB]] = Except.error IOError.unexpectedEof :=
  ⟨rfl, rfl, rfl, rfl⟩

/-- C3 as stated fails on the checked encode path: through a writer that
accepts only one byte per call — a short write the `Write` contract
permits — encoding the 2-byte value `[0x0A, 0x0B]` succeeds reporting 1
byte transferred, not the value's size 2. -/
theorem checked_encode_short_write_counterexample :
    (to_le_bytes false [0x0A, 0x0B] shortWrite ()).1 = Except.ok (1, ()) ∧
      (1 : Nat) ≠ 2 :=
  ⟨rfl, by decide⟩

/-- C3 amended: encoding always offers exactly `size_of(value_type)` bytes
to the stream, and unchecked encode writes exactly that many bytes
(leaving the destination's tail untouched) and returns that count; checked
encode reports the count the stream accepted, which can be less than the
size on a short write; decoding always consumes exactly
`size_of(value_type)` bytes on success and fails returning no partial
value when the source is short. -/
theorem size_fidelity_amended {σ : Type} (hostBig : Bool) (v out src src2 : List Byte)
    (size : Nat) (wr : WriteFn σ) (s : σ)
    (hout : v.length ≤ out.length) (hsrc : size ≤ src.length)
    (hshort : src2.length < size) :
    (transform_le_bytes hostBig v v.length).length = v.length ∧
    (transform_be_bytes hostBig v v.length).length = v.length ∧
    (v.length ≠ 0 →
        (to_le_bytes hostBig v wr s).1 = wr s (transform_le_bytes hostBig v v.length) ∧
        (to_be_bytes hostBig v wr s).1 = wr s (transform_be_bytes hostBig v v.length)) ∧
    (to_le_bytes_unchecked hostBig v out).1 = v.length ∧
    (to_be_bytes_unchecked hostBig v out).1 = v.length ∧
    (to_le_bytes_unchecked hostBig v out).2.length = out.length ∧
    (to_le_bytes_unchecked hostBig v out).2.drop v.length = out.drop v.length ∧
    (to_be_bytes_unchecked hostBig v out).2.length = out.length ∧
    (to_be_bytes_unchecked hostBig v out).2.drop v.length = out.drop v.length ∧
    (from_le_bytes hostBig size streamRead src).map Prod.snd =
        Except.ok (src.drop size) ∧
    (from_be_bytes hostBig size streamRead src).map Prod.snd =
        Except.ok (src.drop size) ∧
    from_le_bytes hostBig size streamRead src2 = Except.error IOError.unexpectedEof ∧
    from_be_bytes hostBig size streamRead src2 = Except.error IOError.unexpectedEof := by
  have hpos : 0 < size := by omega
  have hrev : (if hostBig then v.reverse else v).length = v.length := by
    cases hostBig <;> simp
  have hrev2 : (if hostBig then v else v.reverse).length = v.length := by
    cases hostBig <;> simp
  refine ⟨length_transform_le_bytes hostBig v, length_transform_be_bytes hostBig v,
    ?_, ?_, ?_, ?_, ?_, ?_, ?_, ?_, ?_, ?_, ?_⟩
  · intro h
    constructor
    · simp only [to_le_bytes, if_neg h]
    · simp only [to_be_bytes, if_neg h]
  · rw [to_le_bytes_unchecked_eq]
  · rw [to_be_bytes_unchecked_eq]
  · rw [to_le_bytes_unchecked_eq]
    by_cases h : v.length = 0
    · simp [h]
    · simp only [if_neg h]
      rw [List.length_append, hrev, List.length_drop]
      omega
  · rw [to_le_bytes_unchecked_eq]
    by_cases h : v.length = 0
    · simp [h]
    · simp only [if_neg h]
      conv_lhs => rw [show v.length = (if hostBig then v.reverse else v).length
        from hrev.symm]
      rw [List.drop_left, hrev]
  · rw [to_be_bytes_unchecked_eq]
    by_cases h : v.length = 0
    · simp [h]
    · simp only [if_neg h]
      rw [List.length_append, hrev2, List.length_drop]
      omega
  · rw [to_be_bytes_unchecked_eq]
    by_cases h : v.length = 0
    · simp [h]
    · simp only [if_neg h]
      conv_lhs => rw [show v.length = (if hostBig then v else v.reverse).length
        from hrev2.symm]
      rw [List.drop_left, hrev2]
  · rw [from_le_bytes_stream hostBig size src hsrc]
    rfl
  · rw [from_be_bytes_stream hostBig size src hsrc]
    rfl
  · simp only [from_le_bytes, if_neg (by omega : ¬size = 0), streamRead]
    rw [if_pos (by simp [List.length_take]; omega)]
  · simp only [from_be_bytes, if_neg (by omega : ¬size = 0), streamRead]
    rw [if_pos (by simp [List.length_take]; omega)]

/-- Instance of the amended size-fidelity statement at a 2-byte value, a
3-byte destination, a 3-byte source and a 1-byte (short) source. -/
theorem size_fidelity_amended_witness :
    ([1, 2] : List Byte).length ≤ ([0, 0, 9] : List Byte).length ∧
    (2 ≤ ([5, 6, 7] : List Byte).length ∧ ([5] : List Byte).length < 2) ∧
    (from_le_bytes false 2 streamRead [5, 6, 7]).map Prod.snd = Except.ok [7] ∧
    from_le_bytes false 2 streamRead [5] = Except.error IOError.unexpectedEof := by
  have h := size_fidelity_amended false [1, 2] [0, 0, 9] [5, 6, 7] [5] 2 shortWrite ()
      (by decide) (by decide) (by decide)
  exact ⟨by decide, ⟨by decide, by decide⟩,
    h.2.2.2.2.2.2.2.2.2.1, h.2.2.2.2.2.2.2.2.2.2.2.1⟩

/-- C4: on the host order whose transform direction actually reverses
(little-endian host for `transform_be_bytes`, big-endian host for
`transform_le_bytes` — the same loop), the primitive swaps the byte at
offset `i` with the byte at offset `len - 1 - i` for every
`i ∈ [0, len / 2)`, leaves the middle byte of an odd-length buffer
untouched, and performs no swaps for `len ≤ 1` (the reversal is the
identity). -/
theorem reversal_swaps_pointwise (buf : List Byte) :
    (∀ i, i < buf.length / 2 →
        (transform_be_bytes false buf buf.length).getD i 0 =
            buf.getD (buf.length - 1 - i) 0 ∧
        (transform_be_bytes false buf buf.length).getD (buf.length - 1 - i) 0 =
            buf.getD i 0) ∧
    (buf.length % 2 = 1 →
        (transform_be_bytes false buf buf.length).getD (buf.length / 2) 0 =
          buf.getD (buf.length / 2) 0) ∧
    (buf.length ≤ 1 → transform_be_bytes false buf buf.length = buf) ∧
    transform_le_bytes true buf buf.length = transform_be_bytes false buf buf.length := by
  have hrl : ∀ j : Nat, (reverseLoop buf buf.length)[j]? =
      if j < buf.length then buf[buf.length - 1 - j]? else buf[j]? :=
    getElem?_reverseLoop buf buf.length le_rfl
  have hbe : transform_be_bytes false buf buf.length = reverseLoop buf buf.length := rfl
  refine ⟨?_, ?_, ?_, rfl⟩
  · intro i hi
    constructor
    · rw [hbe, List.getD_eq_getElem?_getD, hrl i, if_pos (by omega),
        List.getD_eq_getElem?_getD]
    · rw [hbe, List.getD_eq_getElem?_getD, hrl (buf.length - 1 - i),
        if_pos (by omega), List.getD_eq_getElem?_getD,
        show buf.length - 1 - (buf.length - 1 - i) = i by omega]
  · intro hodd
    rw [hbe, List.getD_eq_getElem?_getD, hrl (buf.length / 2), if_pos (by omega),
      show buf.length - 1 - buf.length / 2 = buf.length / 2 by omega,
      List.getD_eq_getElem?_getD]
  · intro hle
    rw [hbe]
    unfold reverseLoop
    rw [if_neg (by omega)]

/-- Instance of the reversal swap property on the buffer `[1, 2, 3]` (the
outer pair is swapped, the middle byte stays) and on a singleton buffer
(identity). -/
theorem reversal_swaps_pointwise_witness :
    (transform_be_bytes false [1, 2, 3] 3).getD 0 0 = ([1, 2, 3] : List Byte).getD 2 0 ∧
    (transform_be_bytes false [1, 2, 3] 3).getD 1 0 = ([1, 2, 3] : List Byte).getD 1 0 ∧
    transform_be_bytes false ([5] : List Byte) 1 = [5] :=
  ⟨((reversal_swaps_pointwise [1, 2, 3]).1 0 (by decide)).1,
   (reversal_swaps_pointwise [1, 2, 3]).2.1 (by decide),
   (reversal_swaps_pointwise [5]).2.2.1 (by decide)⟩

/-- C5: applying the transform primitive (either direction, on either host
byte order) twice in succession to the same buffer restores the original
byte sequence. -/
theorem transform_involutive (hostBig : Bool) (buf : List Byte) :
    transform_le_bytes hostBig (transform_le_bytes hostBig buf buf.length)
        (transform_le_bytes hostBig buf buf.length).length = buf ∧
    transform_be_bytes hostBig (transform_be_bytes hostBig buf buf.length)
        (transform_be_bytes hostBig buf buf.length).length = buf := by
  constructor
  · rw [transform_le_bytes_eq hostBig (transform_le_bytes hostBig buf buf.length),
      transform_le_bytes_eq hostBig buf]
    cases hostBig <;> simp
  · rw [transform_be_bytes_eq hostBig (transform_be_bytes hostBig buf buf.length),
      transform_be_bytes_eq hostBig buf]
    cases hostBig <;> simp

/-- C6: for a zero-size value (the empty bit pattern), every encode
operation succeeds reporting 0 bytes written and every decode operation
succeeds returning the default (empty) instance, all without any stream or
memory interaction, for every writer, reader and destination — so
zero-size values never produce errors. -/
theorem zero_size_identity {σ ρ : Type} (hostBig : Bool) (wr : WriteFn σ) (s : σ)
    (rd : ReadFn ρ) (r : ρ) (out src : List Byte) :
    to_le_bytes hostBig [] wr s = (Except.ok (0, s), []) ∧
    to_be_bytes hostBig [] wr s = (Except.ok (0, s), []) ∧
    from_le_bytes hostBig 0 rd r = Except.ok ([], r) ∧
    from_be_bytes hostBig 0 rd r = Except.ok ([], r) ∧
    to_le_bytes_unchecked hostBig [] out = (0, out) ∧
    to_be_bytes_unchecked hostBig [] out = (0, out) ∧
    from_le_bytes_unchecked hostBig 0 src = [] ∧
    from_be_bytes_unchecked hostBig 0 src = [] :=
  ⟨rfl, rfl, rfl, rfl, rfl, rfl, rfl, rfl⟩

/-- C7: the 4-byte unsigned integer 0x01020304 (taken in its native host
representation on either host) encodes to big-endian as
`[0x01, 0x02, 0x03, 0x04]` and to little-endian as
`[0x04, 0x03, 0x02, 0x01]`. -/
theorem order_correctness_u32 (hostBig : Bool) :
    (to_be_bytes hostBig (u32NativeBytes hostBig 0x01020304) sinkWrite []).1 =
        Except.ok (4, [0x01, 0x02, 0x03, 0x04]) ∧
    (to_le_bytes hostBig (u32NativeBytes hostBig 0x01020304) sinkWrite []).1 =
        Except.ok (4, [0x04, 0x03, 0x02, 0x01]) := by
  cases hostBig <;> exact ⟨rfl, rfl⟩

/-- C8: for valid inputs, the checked and unchecked operations of the same
direction and byte order produce bit-identical results: the checked
encoder reports the same count and hands the stream exactly the bytes the
unchecked encoder writes into its destination region, and the checked
decoder constructs exactly the value the unchecked decoder constructs from
the same source bytes. -/
theorem checked_unchecked_equivalence (hostBig : Bool) (v out src : List Byte)
    (size : Nat) (hout : v.length ≤ out.length) (hsrc : size ≤ src.length) :
    (to_le_bytes hostBig v sinkWrite []).1 =
        Except.ok ((to_le_bytes_unchecked hostBig v out).1,
          (to_le_bytes_unchecked hostBig v out).2.take v.length) ∧
    (to_be_bytes hostBig v sinkWrite []).1 =
        Except.ok ((to_be_bytes_unchecked hostBig v out).1,
          (to_be_bytes_unchecked hostBig v out).2.take v.length) ∧
    (from_le_bytes hostBig size streamRead src).map Prod.fst =
        Except.ok (from_le_bytes_unchecked hostBig size src) ∧
    (from_be_bytes hostBig size streamRead src).map Prod.fst =
        Except.ok (from_be_bytes_unchecked hostBig size src) := by
  refine ⟨?_, ?_, ?_, ?_⟩
  · rw [to_le_bytes_sink, to_le_bytes_unchecked_eq]
    simp only [List.nil_append]
    by_cases h : v.length = 0
    · have hv : v = [] := List.length_eq_zero.mp h
      subst hv
      cases hostBig <;> rfl
    · simp only [if_neg h]
      rw [transform_le_bytes_eq]
      rw [show v.length = (if hostBig then v.reverse else v).length from by
          cases hostBig <;> simp]
      rw [List.take_left]
  · rw [to_be_bytes_sink, to_be_bytes_unchecked_eq]
    simp only [List.nil_append]
    by_cases h : v.length = 0
    · have hv : v = [] := List.length_eq_zero.mp h
      subst hv
      cases hostBig <;> rfl
    · simp only [if_neg h]
      rw [transform_be_bytes_eq]
      rw [show v.length = (if hostBig then v else v.reverse).length from by
          cases hostBig <;> simp]
      rw [List.take_left]
  · rw [from_le_bytes_stream hostBig size src hsrc]
    by_cases h0 : size = 0
    · subst h0
      cases hostBig <;> rfl
    · simp only [from_le_bytes_unchecked, if_neg h0,
        fillBuffer_eq_take size src hsrc]
      rfl
  · rw [from_be_bytes_stream hostBig size src hsrc]
    by_cases h0 : size = 0
    · subst h0
      cases hostBig <;> rfl
    · simp only [from_be_bytes_unchecked, if_neg h0,
        fillBuffer_eq_take size src hsrc]
      rfl

/-- Instance of checked/unchecked equivalence at a 2-byte value, a 3-byte
destination region and a 3-byte source. -/
theorem checked_unchecked_equivalence_witness :
    (to_le_bytes false [1, 2] sinkWrite []).1 =
        Except.ok ((to_le_bytes_unchecked false [1, 2] [0, 0, 9]).1,
          (to_le_bytes_unchecked false [1, 2] [0, 0, 9]).2.take 2) ∧
    (from_le_bytes false 2 streamRead [5, 6, 7]).map Prod.fst =
        Except.ok (from_le_bytes_unchecked false 2 [5, 6, 7]) := by
  have h := checked_unchecked_equivalence false [1, 2] [0, 0, 9] [5, 6, 7] 2
      (by decide) (by decide)
  exact ⟨h.1, h.2.2.1⟩

/-- C9: checked encode leaves the caller's value unchanged on every path:
the byte-order transform runs on the stack-local copy `tmp`, never on the
value in place. -/
theorem checked_encode_preserves_value {σ : Type} (hostBig : Bool) (v : List Byte)
    (wr : WriteFn σ) (s : σ) :
    (to_le_bytes hostBig v wr s).2 = v ∧ (to_be_bytes hostBig v wr s).2 = v := by
  refine ⟨?_, ?_⟩
  · by_cases h : v.length = 0 <;> simp [to_le_bytes, h]
  · by_cases h : v.length = 0 <;> simp [to_be_bytes, h]

/-- C10: checked decode of a non-zero-size value issues exactly one read
request: with a chunk-scripted reader it consumes exactly the first chunk,
fails with `unexpectedEof` whenever that single chunk is short — whatever
bytes the later chunks would deliver — and otherwise constructs the value
from that chunk alone, leaving the remaining chunks untouched. -/
theorem decode_single_read (hostBig : Bool) (size : Nat) (c : List Byte)
    (rest : List (List Byte)) (hpos : 0 < size) :
    from_le_bytes hostBig size chunkRead (c :: rest) =
      (if c.length < size then Except.error IOError.unexpectedEof
       else Except.ok (from_le_bytes_unchecked hostBig size c, rest)) ∧
    from_be_bytes hostBig size chunkRead (c :: rest) =
      (if c.length < size then Except.error IOError.unexpectedEof
       else Except.ok (from_be_bytes_unchecked hostBig size c, rest)) := by
  have h0 : ¬size = 0 := by omega
  have hmin : (c.take size).length = min size c.length := List.length_take ..
  constructor
  · simp only [from_le_bytes, if_neg h0, chunkRead]
    by_cases hc : c.length < size
    · rw [if_pos (by rw [hmin]; omega), if_pos hc]
    · rw [if_neg (by rw [hmin]; omega), if_neg hc,
        fillBuffer_eq_of_length size (c.take size) (by rw [hmin]; omega)]
      simp only [from_le_bytes_unchecked, if_neg h0,
        fillBuffer_eq_take size c (by omega)]
  · simp only [from_be_bytes, if_neg h0, chunkRead]
    by_cases hc : c.length < size
    · rw [if_pos (by rw [hmin]; omega), if_pos hc]
    · rw [if_neg (by rw [hmin]; omega), if_neg hc,
        fillBuffer_eq_of_length size (c.take size) (by rw [hmin]; omega)]
      simp only [from_be_bytes_unchecked, if_neg h0,
        fillBuffer_eq_take size c (by omega)]

/-- Instance of the single-read property: a 2-byte decode whose first read
delivers one byte fails with `unexpectedEof` even though a second chunk
holds two more bytes. -/
theorem decode_single_read_witness :
    0 < 2 ∧
    (from_le_bytes false 2 chunkRead ([7] :: [[8, 9]]) =
        (if ([7] : List Byte).length < 2 then Except.error IOError.unexpectedEof
         else Except.ok (from_le_bytes_unchecked false 2 [7], [[8, 9]])) ∧
     from_be_bytes false 2 chunkRead ([7] :: [[8, 9]]) =
        (if ([7] : List Byte).length < 2 then Except.error IOError.unexpectedEof
         else Except.ok (from_be_bytes_unchecked false 2 [7], [[8, 9]]))) :=
  ⟨by decide, decode_single_read false 2 [7] [[8, 9]] (by decide)⟩

end Tinybit
